import Mathlib

/-!
Verification of the scan/detect/classify/prune core of `local-project-manager`
(`src/lpm/scanner.py`, `src/lpm/git_utils.py`, `src/lpm/project.py`) against its
natural-language specification.

Modelling conventions (shallow embedding):
* The filesystem is an inductive tree `FsTree`.  A directory node carries its
  base name, its own modification time (visible through `stat` even when the
  directory cannot be listed), a `readable` flag (false = listing the directory
  raises `OSError`/`PermissionError`, and `stat`-ing its children fails, so
  child-existence checks come back false), the parsed state of an optional
  `.git` child directory, and the list of its direct entries.
* Timestamps are integers (seconds); Python's `timedelta.days` is floor
  division by 86400, embedded as `Int.fdiv`.
* Byte counts are naturals; megabyte sizes are rationals (`st_size` sums
  divided by 1024*1024), so the order comparisons of `is_prunable` are exact.
* The `.git` child directory is represented by the `git : Option GitMeta`
  field of a directory node: `none` = no `.git` entry, `some .invalid` =
  `.git` exists but `git.Repo` raises (corrupt metadata), `some (.valid ...)`
  = a repository whose remotes/dirtiness/branch facts are the constructor
  arguments.  `inspectFails` models `GitCommandError`/`ValueError` escaping
  from the branch-tracking queries (the source maps it to `CLEAN`).
* `datetime.now()` is a scan-wide parameter `now` (field of `ScanArgs`).
* The progress callback is modelled by the event trace the scan returns
  alongside its project list: one `(path, count)` pair per invocation, in
  invocation order.  The callback's return value is never consulted, so it
  cannot influence the scan.
* Paths are segment lists; the scan root lives at an arbitrary `base` path.
-/

/-- `ProjectType` enum from `src/lpm/project.py`. -/
inductive ProjectType where
  | PYTHON | NODEJS | RUST | GO | JAVA | PHP | CSHARP | RUBY | UNKNOWN
  deriving DecidableEq, Repr

/-- `GitStatus` enum from `src/lpm/project.py`. -/
inductive GitStatus where
  | CLEAN | DIRTY | UNPUSHED | NO_REMOTE
  deriving DecidableEq, Repr

/-- `Classification` enum from `src/lpm/project.py`. -/
inductive Classification where
  | ACTIVE | WIP | DORMANT | STALE
  deriving DecidableEq, Repr

/-- A configured git remote: its name and its url list (GitPython `Remote`). -/
structure Remote where
  name : String
  urls : List String
  deriving DecidableEq, Repr

/-- Parsed state of a `.git` directory, as observed through GitPython by
`get_git_info` (`src/lpm/git_utils.py`).  `invalid` is the
`InvalidGitRepositoryError`/`GitCommandError` case when opening the repo. -/
inductive GitMeta where
  | invalid
  | valid (remotes : List Remote) (isDirty : Bool) (headDetached : Bool)
      (trackingBranch : Option String) (commitsAhead : Nat) (inspectFails : Bool)
  deriving DecidableEq, Repr

/-- A filesystem subtree: a regular file (name, `st_size`, `st_mtime`) or a
directory (name, own `st_mtime`, readability, `.git` state, direct entries).
Symlinks are not modelled: the scanner never follows directory symlinks. -/
inductive FsTree where
  | file (name : String) (size : Nat) (mtime : Int)
  | dir (name : String) (mtime : Int) (readable : Bool)
      (git : Option GitMeta) (entries : List FsTree)

/-- Base name of a node (`Path.name` / `entry.name`). -/
def FsTree.name : FsTree → String
  | .file nm _ _ => nm
  | .dir nm _ _ _ _ => nm

/-- `entry.is_dir(follow_symlinks=False)`. -/
def FsTree.isDir : FsTree → Bool
  | .file _ _ _ => false
  | .dir _ _ _ _ _ => true

/-- The node's own modification time (`stat().st_mtime`). -/
def FsTree.mtime : FsTree → Int
  | .file _ _ m => m
  | .dir _ m _ _ _ => m

/-- Whether listing the directory succeeds; files are always statable. -/
def FsTree.readable : FsTree → Bool
  | .file _ _ _ => true
  | .dir _ _ r _ _ => r

/-- Direct entries of a directory node. -/
def FsTree.entries : FsTree → List FsTree
  | .file _ _ _ => []
  | .dir _ _ _ _ es => es

/-- `(path / name).exists()`: a direct entry with this exact name is visible.
False when the directory itself cannot be accessed (Python's `Path.exists`
swallows the `PermissionError` and reports `False`). -/
def existsEntry (t : FsTree) (nm : String) : Bool :=
  match t with
  | .file _ _ _ => false
  | .dir _ _ r _ es => r && es.any (fun e => e.name == nm)

/-- `(path / name).exists() and (path / name).is_file()`. -/
def isFileEntry (t : FsTree) (nm : String) : Bool :=
  match t with
  | .file _ _ _ => false
  | .dir _ _ r _ es => r && es.any (fun e => !e.isDir && e.name == nm)

/-- `(path / ".git").exists()`: the `.git` child is modelled by the `git`
field of the directory node. -/
def hasGitEntry (t : FsTree) : Bool :=
  match t with
  | .file _ _ _ => false
  | .dir _ _ r g _ => r && g.isSome

/-- Shell-style wildcard match (`fnmatch`): `*` matches any run of
characters, `?` any single character, everything else literally.  The fuel
argument only bounds the recursion (every recursive call shrinks
`ps.length + cs.length`, so `fnmatchStr` supplies enough for the match to
run to completion). -/
def fnmatchAux : Nat → List Char → List Char → Bool
  | _, [], [] => true
  | _, [], _ :: _ => false
  | fuel + 1, '*' :: ps, [] => fnmatchAux fuel ps []
  | fuel + 1, '*' :: ps, c :: cs =>
    fnmatchAux fuel ps (c :: cs) || fnmatchAux fuel ('*' :: ps) cs
  | fuel + 1, '?' :: ps, _ :: cs => fnmatchAux fuel ps cs
  | fuel + 1, p :: ps, c :: cs => p == c && fnmatchAux fuel ps cs
  | _ + 1, _ :: _, [] => false
  | 0, _ :: _, _ => false

/-- `fnmatch` on strings. -/
def fnmatchStr (pat s : String) : Bool :=
  fnmatchAux (pat.length + s.length + 1) pat.data s.data

/-- `list(project_path.glob(marker))` is non-empty: some direct entry matches
the pattern shell-style (the scanner's glob patterns have one component). -/
def globHit (t : FsTree) (pat : String) : Bool :=
  match t with
  | .file _ _ _ => false
  | .dir _ _ r _ es => r && es.any (fun e => fnmatchStr pat e.name)

/-- `PROJECT_TYPE_MARKERS` from `src/lpm/scanner.py`, in dict insertion order
(the iteration order of `detect_project_type`).  Note its C# entries are the
literal names `.csproj` and `.sln`, without a `*`. -/
def PROJECT_TYPE_MARKERS : List (ProjectType × List String) :=
  [(.PYTHON, ["pyproject.toml", "setup.py", "requirements.txt"]),
   (.NODEJS, ["package.json"]),
   (.RUST, ["Cargo.toml"]),
   (.GO, ["go.mod"]),
   (.JAVA, ["pom.xml", "build.gradle"]),
   (.PHP, ["composer.json"]),
   (.CSHARP, [".csproj", ".sln"]),
   (.RUBY, ["Gemfile"])]

/-- `README_NAMES` from `src/lpm/scanner.py`. -/
def README_NAMES : List String :=
  ["README.md", "README.txt", "readme.md", "readme.txt", "Readme.md", "Readme.txt"]

/-- One marker test of `detect_project_type`: the glob branch when the marker
contains a `*` (the test `"*" in marker`), otherwise a plain existence
check. -/
def markerHit (t : FsTree) (marker : String) : Bool :=
  if marker.data.contains '*' then globHit t marker else existsEntry t marker

/-- The marker-table loop of `detect_project_type`: first type whose marker
list has a hit. -/
def detectFrom : List (ProjectType × List String) → FsTree → ProjectType
  | [], _ => .UNKNOWN
  | (ty, ms) :: rest, t => if ms.any (markerHit t) then ty else detectFrom rest t

/-- `detect_project_type` (`src/lpm/scanner.py`, lines 27-46). -/
def detect_project_type (t : FsTree) : ProjectType :=
  detectFrom PROJECT_TYPE_MARKERS t

/-- `should_ignore_directory` (`src/lpm/scanner.py`, lines 49-60): exact,
case-sensitive membership of the base name in the pattern list. -/
def should_ignore_directory (dir_name : String) (ignore_patterns : List String) : Bool :=
  ignore_patterns.contains dir_name

/-- `find_readme` (`src/lpm/scanner.py`, lines 130-145): first name of
`README_NAMES` that exists as a regular file; the caller builds the full
path by appending the matched name to the directory's path. -/
def find_readme (t : FsTree) : Option String :=
  README_NAMES.find? (fun nm => isFileEntry t nm)

/-- `is_project_directory` (`src/lpm/scanner.py`, lines 148-170). -/
def is_project_directory (t : FsTree) : Bool :=
  if hasGitEntry t then true
  else if (find_readme t).isSome then true
  else if detect_project_type t != .UNKNOWN then true
  else false

mutual

/-- Total bytes below a node, as summed by `get_directory_size`
(`src/lpm/scanner.py`, lines 63-88): every regular file reachable through
`os.walk`; an unlistable directory yields nothing, so its whole subtree
contributes 0. -/
def totalBytes : FsTree → Nat
  | .file _ s _ => s
  | .dir _ _ r _ es => if r then totalBytesList es else 0

/-- List version of `totalBytes` (the `os.walk` recursion over entries). -/
def totalBytesList : List FsTree → Nat
  | [] => 0
  | e :: rest => totalBytes e + totalBytesList rest

end

/-- `get_directory_size` (`src/lpm/scanner.py`, lines 63-88): bytes divided by
1024*1024, as an exact rational. -/
def get_directory_size (t : FsTree) : ℚ :=
  (totalBytes t : ℚ) / (1024 * 1024)

/-- Modification times of the direct regular-file entries (the `filenames`
of one `os.walk` tuple). -/
def fileTimes (es : List FsTree) : List Int :=
  es.filterMap fun e =>
    match e with
    | .file _ _ m => some m
    | .dir _ _ _ _ _ => none

mutual

/-- The modification times yielded by `os.walk` from a node, as folded by
`get_last_modified`: a listable directory contributes its own mtime, its
files' mtimes, and recursively its subdirectories' contributions; an
unlistable directory yields no tuple at all (not even its own mtime). -/
def walkTimes : FsTree → List Int
  | .file _ _ _ => []
  | .dir _ m r _ es => if r then m :: (fileTimes es ++ walkTimesList es) else []

/-- List version of `walkTimes`. -/
def walkTimesList : List FsTree → List Int
  | [] => []
  | e :: rest => walkTimes e ++ walkTimesList rest

end

/-- `get_last_modified` (`src/lpm/scanner.py`, lines 91-127): starts from the
directory's own `stat` mtime (line 101, which succeeds even when the listing
does not) and takes the maximum over everything the walk yields. -/
def get_last_modified (t : FsTree) : Int :=
  (walkTimes t).foldl max t.mtime

/-- Remote-url selection of `get_git_info`: prefer the remote named
`origin`, else the first remote; take its first url, if any. -/
def selectRemoteUrl (remotes : List Remote) : Option String :=
  if remotes.isEmpty then none
  else if remotes.any (fun rm => rm.name == "origin") then
    match remotes.find? (fun rm => rm.name == "origin") with
    | some origin => origin.urls.head?
    | none => none
  else
    match remotes.head? with
    | some fst => fst.urls.head?
    | none => none

/-- Status derivation of `get_git_info` once a repo opened successfully:
no resolved remote url means `NO_REMOTE`; a dirty working tree (untracked
included) means `DIRTY`; otherwise the branch/tracking inspection runs under
a try/except whose failure (`inspectFails`) yields `CLEAN`; a detached head
yields `CLEAN`; a branch without upstream yields `NO_REMOTE`; commits ahead
of the upstream yield `UNPUSHED`, else `CLEAN`. -/
def deriveGitStatus (remoteUrl : Option String) (isDirty headDetached : Bool)
    (trackingBranch : Option String) (commitsAhead : Nat) (inspectFails : Bool) :
    GitStatus :=
  if remoteUrl.isNone then .NO_REMOTE
  else if isDirty then .DIRTY
  else if inspectFails then .CLEAN
  else if headDetached then .CLEAN
  else
    match trackingBranch with
    | none => .NO_REMOTE
    | some _ => if commitsAhead > 0 then .UNPUSHED else .CLEAN

/-- `get_git_info` (`src/lpm/git_utils.py`, lines 11-73): returns
`(has_git, remote_url, git_status)`.  No visible `.git` entry gives
`(false, none, none)`; a `.git` whose metadata cannot be parsed gives
`(true, none, none)`; otherwise the remote url and status are derived. -/
def get_git_info (t : FsTree) : Bool × Option String × Option GitStatus :=
  match t with
  | .file _ _ _ => (false, none, none)
  | .dir _ _ r g _ =>
    if r && g.isSome then
      match g with
      | some .invalid => (true, none, none)
      | some (.valid remotes isDirty headDetached trackingBranch commitsAhead inspectFails) =>
        let remoteUrl := selectRemoteUrl remotes
        (true, remoteUrl,
          some (deriveGitStatus remoteUrl isDirty headDetached trackingBranch
            commitsAhead inspectFails))
      | none => (false, none, none)
    else (false, none, none)

/-- `classify_project` (`src/lpm/scanner.py`, lines 173-203).  `now` is the
`datetime.now()` of the call; `(now - last_modified).days` is floor division
of the second difference by 86400. -/
def classify_project (now last_modified : Int) (has_git_remote has_readme : Bool)
    (active_threshold dormant_threshold : Int) : Classification :=
  let age_days := (now - last_modified).fdiv 86400
  if age_days ≤ active_threshold then
    if has_git_remote || has_readme then .ACTIVE else .WIP
  else if age_days ≤ dormant_threshold then .DORMANT
  else .STALE

/-- `is_prunable` (`src/lpm/scanner.py`, lines 206-233).  Note the source's
parameter names: `min_size_mb` is the large-size trigger (`>`), `max_size_mb`
the tiny-size trigger (`<`). -/
def is_prunable (classification : Classification) (has_git_remote : Bool)
    (size_mb min_size_mb max_size_mb : ℚ) : Bool :=
  if classification != .STALE then false
  else if has_git_remote then false
  else size_mb > min_size_mb || size_mb < max_size_mb

/-- The `Project` dataclass (`src/lpm/project.py`): one record per detected
project.  Paths are segment lists; `readme_path` is the directory path with
the matched README name appended. -/
structure Project where
  path : List String
  name : String
  has_git : Bool
  git_remote : Option String
  git_status : Option GitStatus
  readme_path : Option (List String)
  project_type : ProjectType
  last_modified : Int
  size_mb : ℚ
  classification : Classification
  is_prunable : Bool
  deriving DecidableEq, Repr

/-- The scan-wide arguments of `scan_for_projects` that are passed unchanged
through the recursion, plus the `datetime.now()` instant of the scan. -/
structure ScanArgs where
  ignore_patterns : List String
  active_threshold : Int
  dormant_threshold : Int
  prunable_min_size_mb : ℚ
  prunable_max_size_mb : ℚ
  now : Int

/-- One progress-callback invocation: the reported path and the
`len(projects)` count passed with it. -/
abbrev ScanEvent := List String × Nat

/-- Metadata extraction and record construction for one project directory
(`src/lpm/scanner.py`, lines 268-302 and 326-362: both sites build the record
the same way). -/
def mkProject (cfg : ScanArgs) (base : List String) (t : FsTree) : Project :=
  let gi := get_git_info t
  let readme_path := (find_readme t).map (fun nm => base ++ [nm])
  let last_modified := get_last_modified t
  let size_mb := get_directory_size t
  let classification := classify_project cfg.now last_modified gi.2.1.isSome
    readme_path.isSome cfg.active_threshold cfg.dormant_threshold
  { path := base
    name := t.name
    has_git := gi.1
    git_remote := gi.2.1
    git_status := gi.2.2
    readme_path := readme_path
    project_type := detect_project_type t
    last_modified := last_modified
    size_mb := size_mb
    classification := classification
    is_prunable := is_prunable classification gi.2.1.isSome size_mb
      cfg.prunable_min_size_mb cfg.prunable_max_size_mb }

mutual

/-- `scan_for_projects` (`src/lpm/scanner.py`, lines 236-383).  Returns the
accumulated project list together with the trace of progress-callback
invocations, in order.  `check_root` is the `_check_root` flag; `base` is the
path of `t`.  When `check_root` holds and the root is a project, the record
and the `(base, 0)` progress event are emitted (lines 264-304); then, if the
directory can be listed (`os.scandir` succeeding), the children are walked in
order; an unlistable directory degrades to what was gathered so far
(lines 379-381), so the function is total and never raises. -/
def scan_for_projects (cfg : ScanArgs) (base : List String) (t : FsTree)
    (check_root : Bool) : List Project × List ScanEvent :=
  match t with
  | .file _ _ _ => ([], [])
  | .dir _ _ r _ es =>
    let start : List Project × List ScanEvent :=
      if check_root && is_project_directory t then
        ([mkProject cfg base t], [(base, 0)])
      else ([], [])
    if r then scanChildren cfg base es start else start

/-- The `for entry in os.scandir(scan_path)` loop of `scan_for_projects`
(lines 308-377): non-directory entries are skipped; ignored directory names
are skipped; every other child directory first triggers a progress event
carrying the current local `len(projects)`, is then checked and possibly
recorded as a project, and is then recursed into with `_check_root=False`,
its results extending the accumulator. -/
def scanChildren (cfg : ScanArgs) (base : List String) (es : List FsTree)
    (acc : List Project × List ScanEvent) : List Project × List ScanEvent :=
  match es with
  | [] => acc
  | e :: rest =>
    match e with
    | .file _ _ _ => scanChildren cfg base rest acc
    | .dir nm _ _ _ _ =>
      if should_ignore_directory nm cfg.ignore_patterns then
        scanChildren cfg base rest acc
      else
        let childBase := base ++ [nm]
        let ev : ScanEvent := (childBase, acc.1.length)
        let withProj :=
          if is_project_directory e then acc.1 ++ [mkProject cfg childBase e]
          else acc.1
        let sub := scan_for_projects cfg childBase e false
        scanChildren cfg base rest (withProj ++ sub.1, (acc.2 ++ [ev]) ++ sub.2)

end

/-- Spec-side project predicate (spec 4.2): a VCS marker entry, or one of the
fixed README name variants present as a file, or some manifest marker of the
type table matching.  Compared with the source's `is_project_directory`. -/
def isProjectSpec (t : FsTree) : Prop :=
  hasGitEntry t = true ∨
  (∃ nm ∈ README_NAMES, isFileEntry t nm = true) ∨
  (∃ pr ∈ PROJECT_TYPE_MARKERS, ∃ m ∈ pr.2, markerHit t m = true)

mutual

/-- Replaces the contents of every unlistable directory with the empty list,
keeping the node itself.  `scan_for_projects` and both metadata extractors
cannot see below an unlistable directory, so they are invariant under this
pruning: that is the formal content of "a directory-read error aborts only
the affected subtree". -/
def pruneTree : FsTree → FsTree
  | .file nm s m => .file nm s m
  | .dir nm m r g es => if r then .dir nm m r g (pruneList es) else .dir nm m r g []

/-- List version of `pruneTree`. -/
def pruneList : List FsTree → List FsTree
  | [] => []
  | e :: rest => pruneTree e :: pruneList rest

end

mutual

/-- Modelled from the amended claim: the progress-callback trace of one
`scan_for_projects` call, written independently of the scan itself.  Returns
the number of projects the call accumulates and the trace it emits: a
`(base, 0)` event if (and only if) this is the top-level call and the root is
a project, then, when the directory is listable, the children's events. -/
def specScan (ps : List String) (base : List String) (t : FsTree) (root : Bool) :
    Nat × List ScanEvent :=
  match t with
  | .file _ _ _ => (0, [])
  | .dir _ _ r _ es =>
    let rootHit := root && is_project_directory t
    let k0 := if rootHit then 1 else 0
    let ev0 : List ScanEvent := if rootHit then [(base, 0)] else []
    if r then
      let kids := specKids ps base es k0
      (kids.1, ev0 ++ kids.2)
    else (k0, ev0)

/-- Modelled from the amended claim, child loop: every non-ignored child
directory emits exactly one event carrying the enclosing call's current
project count `k` (a subtree-local count, not a global one); `k` then grows
by one if the child is itself a project, plus everything the child's own
recursive scan accumulates. -/
def specKids (ps : List String) (base : List String) (es : List FsTree) (k : Nat) :
    Nat × List ScanEvent :=
  match es with
  | [] => (k, [])
  | e :: rest =>
    match e with
    | .file _ _ _ => specKids ps base rest k
    | .dir nm _ _ _ _ =>
      if should_ignore_directory nm ps then specKids ps base rest k
      else
        let cb := base ++ [nm]
        let k1 := k + (if is_project_directory e then 1 else 0)
        let sub := specScan ps cb e false
        let next := specKids ps base rest (k1 + sub.1)
        (next.1, ((cb, k) :: sub.2) ++ next.2)

end

/-- A one-megabyte regular file named `README.md`, modification time 0. -/
def readmeFile : FsTree := .file "README.md" 1048576 0

/-- Scan arguments used by the concrete examples: ignore `node_modules`,
default thresholds, `now` = 0. -/
def exampleCfg : ScanArgs :=
  { ignore_patterns := ["node_modules"]
    active_threshold := 30
    dormant_threshold := 180
    prunable_min_size_mb := 10
    prunable_max_size_mb := 1
    now := 0 }

/-- Child `a`: a project (has a README). -/
def exDirA : FsTree := .dir "a" 0 true none [readmeFile]

/-- Grandchild `c` under `b`: a project (has a README). -/
def exDirC : FsTree := .dir "c" 0 true none [readmeFile]

/-- Child `b`: not a project, contains the project `c`. -/
def exDirB : FsTree := .dir "b" 0 true none [exDirC]

/-- A scan root that is not itself a project, with children `a` (a project)
and `b` (not a project, containing the project `c`). -/
def exRoot : FsTree := .dir "root" 0 true none [exDirA, exDirB]

/-- A project directory that contains a nested project subdirectory. -/
def exNested : FsTree := .dir "parent" 0 true none [readmeFile, exDirA]

/-- A project directory whose own base name is `node_modules`. -/
def exIgnoredName : FsTree := .dir "node_modules" 0 true none [readmeFile]

/-- An unlistable directory with invisible contents. -/
def exLocked : FsTree := .dir "locked" 7 false none [.file "x" 5 99]

/-- A directory whose `.git` exists but cannot be parsed. -/
def exCorruptRepo : FsTree := .dir "repo" 0 true (some .invalid) [readmeFile]

/-- A clean repository with an `origin` remote and an upstream branch. -/
def exValidRepo : FsTree :=
  .dir "vr" 0 true
    (some (.valid [{ name := "origin", urls := ["git@example:r.git"] }]
      false false (some "origin/main") 0 false)) [readmeFile]

/-- C1: the claim is right that the table order and first-hit rule hold and
that Python wins over NodeJS, but its C# branch does not match the code: the
code's marker table lists the literal file names `.csproj` and `.sln`
(without `*`), so the glob branch of `detect_project_type` never fires.  A
directory whose only marker is `MyApp.csproj` (or `App.sln`) is detected as
`UNKNOWN`, although the shell-style patterns `*.csproj` / `*.sln` of the
spec would match those names; instead a file literally named `.csproj`
triggers the C# branch. -/
theorem C1_csharp_markers_literal_not_glob :
    detect_project_type (.dir "MyApp" 0 true none [.file "MyApp.csproj" 4096 0])
      = ProjectType.UNKNOWN
    ∧ detect_project_type (.dir "Sol" 0 true none [.file "App.sln" 128 0])
      = ProjectType.UNKNOWN
    ∧ fnmatchStr "*.csproj" "MyApp.csproj" = true
    ∧ fnmatchStr "*.sln" "App.sln" = true
    ∧ detect_project_type (.dir "odd" 0 true none [.file ".csproj" 1 0])
      = ProjectType.CSHARP
    ∧ detect_project_type (.dir "py" 0 true none
        [.file "pyproject.toml" 1 0, .file "package.json" 1 0]) = ProjectType.PYTHON := by
  decide

/-- C2: `is_prunable` returns true exactly when the classification is Stale,
there is no git remote, and the size is above `min_size_mb` (the large
trigger) or below `max_size_mb` (the tiny trigger). -/
theorem C2_is_prunable_charact (c : Classification) (r : Bool) (s a b : ℚ) :
    is_prunable c r s a b = true ↔
      (c = Classification.STALE ∧ r = false ∧ (a < s ∨ s < b)) := by
  cases c <;> cases r <;> simp [is_prunable]

/-- C2 witness: the spec's own examples, evaluated through the theorem. -/
theorem C2_is_prunable_charact_witness :
    is_prunable .STALE false 15 10 1 = true
    ∧ is_prunable .STALE false 5 10 1 = false
    ∧ is_prunable .STALE true 15 10 1 = false
    ∧ is_prunable .ACTIVE false 15 10 1 = false := by
  refine ⟨(C2_is_prunable_charact _ _ _ _ _).mpr ⟨rfl, rfl, Or.inl (by decide)⟩, ?_, ?_, ?_⟩
  · have h := C2_is_prunable_charact .STALE false 5 10 1
    cases hb : is_prunable .STALE false (5 : ℚ) 10 1
    · rfl
    · rcases (h.mp hb).2.2 with h5 | h5 <;> revert h5 <;> decide
  · have h := C2_is_prunable_charact .STALE true 15 10 1
    cases hb : is_prunable .STALE true (15 : ℚ) 10 1
    · rfl
    · exact absurd (h.mp hb).2.1 (by decide)
  · have h := C2_is_prunable_charact .ACTIVE false 15 10 1
    cases hb : is_prunable .ACTIVE false (15 : ℚ) 10 1
    · rfl
    · exact absurd (h.mp hb).1 (by decide)

/-- C3: `classify_project` computes the age as the floor of the elapsed time
in days (`timedelta.days` = floor division of the second difference by
86400, which equals the real floor of the quotient), and returns Active or
WorkInProgress at or below the active threshold according to
`has_git_remote or has_readme`, Dormant between the thresholds, and Stale
beyond both; with ordered thresholds this is exactly "Stale when the age
exceeds the dormant threshold". -/
theorem C3_classify_cases (now lm : Int) (r h : Bool) (a d : Int) :
    ((now - lm).fdiv 86400 ≤ a →
      classify_project now lm r h a d = (if r || h then .ACTIVE else .WIP))
    ∧ (a < (now - lm).fdiv 86400 → (now - lm).fdiv 86400 ≤ d →
      classify_project now lm r h a d = .DORMANT)
    ∧ (a < (now - lm).fdiv 86400 → d < (now - lm).fdiv 86400 →
      classify_project now lm r h a d = .STALE)
    ∧ (a ≤ d → d < (now - lm).fdiv 86400 →
      classify_project now lm r h a d = .STALE)
    ∧ (now - lm).fdiv 86400 = ⌊((now - lm : ℤ) : ℚ) / 86400⌋ := by
  refine ⟨?_, ?_, ?_, ?_, ?_⟩
  · intro hle
    simp only [classify_project]
    rw [if_pos hle]
  · intro hgt hle
    simp only [classify_project]
    rw [if_neg (by omega), if_pos hle]
  · intro hgt hgt2
    simp only [classify_project]
    rw [if_neg (by omega), if_neg (by omega)]
  · intro hord hgt
    simp only [classify_project]
    rw [if_neg (by omega), if_neg (by omega)]
  · rw [Int.fdiv_eq_ediv _ (by norm_num)]
    have hfl := Rat.floor_intCast_div_natCast (now - lm) 86400
    simpa using hfl.symm

/-- C3 witness: the spec's examples (ages 10 and 200 days, thresholds
30/180), obtained by applying the case theorem at concrete inputs. -/
theorem C3_classify_cases_witness :
    classify_project 864000 0 false true 30 180 = .ACTIVE
    ∧ classify_project 864000 0 false false 30 180 = .WIP
    ∧ classify_project 17280000 0 false true 30 180 = .STALE := by
  refine ⟨?_, ?_, ?_⟩
  · have h := (C3_classify_cases 864000 0 false true 30 180).1 (by decide)
    simpa using h
  · have h := (C3_classify_cases 864000 0 false false 30 180).1 (by decide)
    simpa using h
  · exact (C3_classify_cases 17280000 0 false true 30 180).2.2.2.1 (by decide) (by decide)

/-- `find_readme` succeeds exactly when one of the fixed README name
variants is present as a regular file. -/
theorem find_readme_isSome_iff (t : FsTree) :
    (find_readme t).isSome = true ↔ ∃ nm ∈ README_NAMES, isFileEntry t nm = true := by
  unfold find_readme
  rw [List.find?_isSome]

/-- The if-chain of `is_project_directory` as a boolean disjunction. -/
theorem is_project_directory_eq_or (t : FsTree) :
    is_project_directory t =
      (hasGitEntry t || (find_readme t).isSome || (detect_project_type t != .UNKNOWN)) := by
  unfold is_project_directory
  cases hasGitEntry t <;> cases (find_readme t).isSome
    <;> cases detect_project_type t != .UNKNOWN <;> simp

/-- On a table whose types are all distinct from `UNKNOWN`, the marker loop
returns `UNKNOWN` exactly when no marker of the table hits. -/
theorem detectFrom_eq_unknown_iff (L : List (ProjectType × List String)) (t : FsTree)
    (hL : ∀ pr ∈ L, pr.1 ≠ ProjectType.UNKNOWN) :
    detectFrom L t = .UNKNOWN ↔ ∀ pr ∈ L, ∀ m ∈ pr.2, markerHit t m = false := by
  induction L with
  | nil => simp [detectFrom]
  | cons p rest ih =>
    obtain ⟨ty, ms⟩ := p
    have hne : ty ≠ ProjectType.UNKNOWN := hL (ty, ms) (List.mem_cons_self _ _)
    have ih2 := ih (fun pr hpr => hL pr (List.mem_cons_of_mem _ hpr))
    by_cases hms : ms.any (markerHit t) = true
    · rw [show detectFrom ((ty, ms) :: rest) t = ty by simp [detectFrom, hms]]
      constructor
      · intro hE
        exact absurd hE hne
      · intro hall
        obtain ⟨m, hm, hhit⟩ := List.any_eq_true.mp hms
        rw [hall (ty, ms) (List.mem_cons_self _ _) m hm] at hhit
        cases hhit
    · have hms0 : ms.any (markerHit t) = false := by
        revert hms
        cases ms.any (markerHit t) <;> simp
      have hallhd : ∀ m ∈ ms, markerHit t m = false := by
        intro m hm
        by_contra hc
        have : markerHit t m = true := by
          revert hc
          cases markerHit t m <;> simp
        exact hms (List.any_eq_true.mpr ⟨m, hm, this⟩)
      rw [show detectFrom ((ty, ms) :: rest) t = detectFrom rest t by
            simp [detectFrom, hms0]]
      rw [ih2]
      constructor
      · intro hrest pr hpr m hm
        rcases List.mem_cons.mp hpr with hhd | htl
        · cases hhd
          exact hallhd m hm
        · exact hrest pr htl m hm
      · intro hcons pr hpr m hm
        exact hcons pr (List.mem_cons_of_mem _ hpr) m hm

/-- `detect_project_type` finds a type exactly when some marker of the
table hits. -/
theorem detect_ne_unknown_iff (t : FsTree) :
    detect_project_type t ≠ .UNKNOWN ↔
      ∃ pr ∈ PROJECT_TYPE_MARKERS, ∃ m ∈ pr.2, markerHit t m = true := by
  have hch := detectFrom_eq_unknown_iff PROJECT_TYPE_MARKERS t (by decide)
  unfold detect_project_type
  constructor
  · intro hne
    by_contra hno
    push_neg at hno
    refine hne (hch.mpr ?_)
    intro pr hpr m hm
    have := hno pr hpr m hm
    revert this
    cases markerHit t m <;> simp
  · rintro ⟨pr, hpr, m, hm, hhit⟩ hE
    rw [hch.mp hE pr hpr m hm] at hhit
    cases hhit

/-- C4: `is_project_directory` returns true exactly when a `.git` entry is
visible, or a README name variant is present as a file, or some manifest
marker of the type table matches; absent all three it returns false. -/
theorem C4_is_project_directory_iff (t : FsTree) :
    is_project_directory t = true ↔ isProjectSpec t := by
  rw [is_project_directory_eq_or]
  unfold isProjectSpec
  simp only [Bool.or_eq_true, or_assoc]
  refine or_congr Iff.rfl (or_congr (find_readme_isSome_iff t) ?_)
  rw [bne_iff_ne]
  exact detect_ne_unknown_iff t

/-- C4 witness: a README-only directory is a project through the iff, and
the iff also evaluates an empty directory to false. -/
theorem C4_is_project_directory_iff_witness :
    is_project_directory exDirA = true
    ∧ is_project_directory (.dir "empty" 0 true none []) = false := by
  constructor
  · exact (C4_is_project_directory_iff exDirA).mpr
      (Or.inr (Or.inl ⟨"README.md", by decide, by decide⟩))
  · cases hb : is_project_directory (.dir "empty" 0 true none [])
    · rfl
    · rcases (C4_is_project_directory_iff _).mp hb with hc | hc | hc
      · revert hc
        decide
      · obtain ⟨nm, hnm, hfe⟩ := hc
        simp only [README_NAMES, List.mem_cons, List.not_mem_nil, or_false] at hnm
        rcases hnm with rfl | rfl | rfl | rfl | rfl | rfl <;> revert hfe <;> decide
      · obtain ⟨pr, hpr, m, hm, hhit⟩ := hc
        simp only [PROJECT_TYPE_MARKERS, List.mem_cons, List.not_mem_nil, or_false] at hpr
        rcases hpr with rfl | rfl | rfl | rfl | rfl | rfl | rfl | rfl <;>
          simp only [List.mem_cons, List.not_mem_nil, or_false] at hm <;>
          rcases hm with rfl | rfl | rfl <;> revert hhit <;> decide

/-- The child loop threads its accumulator: the projects it returns are the
accumulated ones followed by those computed from the children alone. -/
theorem scanChildren_fst_acc (cfg : ScanArgs) (base : List String) (es : List FsTree)
    (p : List Project) (ev : List ScanEvent) :
    (scanChildren cfg base es (p, ev)).1 = p ++ (scanChildren cfg base es ([], [])).1 := by
  induction es generalizing p ev with
  | nil => simp [scanChildren]
  | cons e rest ih =>
    cases e with
    | file nm s m =>
      simp only [show ∀ acc, scanChildren cfg base (FsTree.file nm s m :: rest) acc
            = scanChildren cfg base rest acc from fun acc => by simp [scanChildren]]
      exact ih p ev
    | dir nm m r g es2 =>
      by_cases hig : should_ignore_directory nm cfg.ignore_patterns = true
      · simp only [show ∀ acc, scanChildren cfg base (FsTree.dir nm m r g es2 :: rest) acc
              = scanChildren cfg base rest acc from fun acc => by simp [scanChildren, hig]]
        exact ih p ev
      · have hig0 : should_ignore_directory nm cfg.ignore_patterns = false := by
          revert hig
          cases should_ignore_directory nm cfg.ignore_patterns <;> simp
        simp only [scanChildren, hig0, Bool.false_eq_true, if_false]
        rw [ih, ih ((if is_project_directory (FsTree.dir nm m r g es2) then
              [] ++ [mkProject cfg (base ++ [nm]) (FsTree.dir nm m r g es2)] else []) ++
              (scan_for_projects cfg (base ++ [nm]) (FsTree.dir nm m r g es2) false).1)]
        by_cases hp : is_project_directory (FsTree.dir nm m r g es2) = true
        · simp [hp]
        · simp only [Bool.not_eq_true] at hp
          simp [hp]

/-- The child loop also threads the event trace: accumulated events come
first and are never altered. -/
theorem scanChildren_snd_acc (cfg : ScanArgs) (base : List String) (es : List FsTree)
    (p : List Project) (ev : List ScanEvent) :
    (scanChildren cfg base es (p, ev)).2 = ev ++ (scanChildren cfg base es (p, [])).2 := by
  induction es generalizing p ev with
  | nil => simp [scanChildren]
  | cons e rest ih =>
    cases e with
    | file nm s m =>
      simp only [show ∀ acc, scanChildren cfg base (FsTree.file nm s m :: rest) acc
            = scanChildren cfg base rest acc from fun acc => by simp [scanChildren]]
      exact ih p ev
    | dir nm m r g es2 =>
      by_cases hig : should_ignore_directory nm cfg.ignore_patterns = true
      · simp only [show ∀ acc, scanChildren cfg base (FsTree.dir nm m r g es2 :: rest) acc
              = scanChildren cfg base rest acc from fun acc => by simp [scanChildren, hig]]
        exact ih p ev
      · have hig0 : should_ignore_directory nm cfg.ignore_patterns = false := by
          revert hig
          cases should_ignore_directory nm cfg.ignore_patterns <;> simp
        simp only [scanChildren, hig0, Bool.false_eq_true, if_false]
        rw [ih, ih _ (([] ++ [(base ++ [nm], p.length)]) ++
              (scan_for_projects cfg (base ++ [nm]) (FsTree.dir nm m r g es2) false).2)]
        simp

/-- The sequence of paths reported by the child loop does not depend on the
accumulated projects (only the counts attached to them do). -/
theorem scanChildren_snd_paths_indep (cfg : ScanArgs) (base : List String)
    (es : List FsTree) (p : List Project) :
    (scanChildren cfg base es (p, [])).2.map Prod.fst
      = (scanChildren cfg base es ([], [])).2.map Prod.fst := by
  induction es generalizing p with
  | nil => simp [scanChildren]
  | cons e rest ih =>
    cases e with
    | file nm s m =>
      simp only [show ∀ acc, scanChildren cfg base (FsTree.file nm s m :: rest) acc
            = scanChildren cfg base rest acc from fun acc => by simp [scanChildren]]
      exact ih p
    | dir nm m r g es2 =>
      by_cases hig : should_ignore_directory nm cfg.ignore_patterns = true
      · simp only [show ∀ acc, scanChildren cfg base (FsTree.dir nm m r g es2 :: rest) acc
              = scanChildren cfg base rest acc from fun acc => by simp [scanChildren, hig]]
        exact ih p
      · have hig0 : should_ignore_directory nm cfg.ignore_patterns = false := by
          revert hig
          cases should_ignore_directory nm cfg.ignore_patterns <;> simp
        simp only [scanChildren, hig0, Bool.false_eq_true, if_false]
        rw [scanChildren_snd_acc, scanChildren_snd_acc cfg base rest _
              (([] ++ [(base ++ [nm], ([] : List Project).length)]) ++
                (scan_for_projects cfg (base ++ [nm]) (FsTree.dir nm m r g es2) false).2)]
        simp only [List.map_append, ih]
        simp

theorem mkProject_path (cfg : ScanArgs) (base : List String) (t : FsTree) :
    (mkProject cfg base t).path = base := rfl

theorem scan_dir_eq (cfg : ScanArgs) (base : List String) (nm : String) (m : Int)
    (r : Bool) (g : Option GitMeta) (es : List FsTree) (ch : Bool) :
    scan_for_projects cfg base (.dir nm m r g es) ch =
      (if r then
        scanChildren cfg base es
          (if ch && is_project_directory (.dir nm m r g es) then
            ([mkProject cfg base (.dir nm m r g es)], [(base, 0)])
          else ([], []))
      else
        (if ch && is_project_directory (.dir nm m r g es) then
          ([mkProject cfg base (.dir nm m r g es)], [(base, 0)])
        else ([], []))) := rfl

theorem scanChildren_nil_eq (cfg : ScanArgs) (base : List String)
    (acc : List Project × List ScanEvent) :
    scanChildren cfg base [] acc = acc := rfl

theorem scanChildren_cons_file_eq (cfg : ScanArgs) (base : List String) (nm : String)
    (s : Nat) (m : Int) (rest : List FsTree) (acc : List Project × List ScanEvent) :
    scanChildren cfg base (.file nm s m :: rest) acc = scanChildren cfg base rest acc := rfl

theorem scanChildren_cons_ignored_eq (cfg : ScanArgs) (base : List String) (nm : String)
    (m : Int) (r : Bool) (g : Option GitMeta) (es2 rest : List FsTree)
    (acc : List Project × List ScanEvent)
    (h : should_ignore_directory nm cfg.ignore_patterns = true) :
    scanChildren cfg base (.dir nm m r g es2 :: rest) acc = scanChildren cfg base rest acc := by
  simp [scanChildren, h]

theorem scanChildren_cons_dir_eq (cfg : ScanArgs) (base : List String) (nm : String)
    (m : Int) (r : Bool) (g : Option GitMeta) (es2 rest : List FsTree)
    (acc : List Project × List ScanEvent)
    (h : should_ignore_directory nm cfg.ignore_patterns = false) :
    scanChildren cfg base (.dir nm m r g es2 :: rest) acc =
      scanChildren cfg base rest
        ((if is_project_directory (.dir nm m r g es2) then
            acc.1 ++ [mkProject cfg (base ++ [nm]) (.dir nm m r g es2)] else acc.1)
          ++ (scan_for_projects cfg (base ++ [nm]) (.dir nm m r g es2) false).1,
         (acc.2 ++ [(base ++ [nm], acc.1.length)])
          ++ (scan_for_projects cfg (base ++ [nm]) (.dir nm m r g es2) false).2) := by
  simp [scanChildren, h]

mutual

theorem scanSegs_tree : ∀ (cfg : ScanArgs) (base : List String) (t : FsTree) (ch : Bool)
    (q : List String),
    (q ∈ (scan_for_projects cfg base t ch).1.map Project.path ∨
      q ∈ (scan_for_projects cfg base t ch).2.map Prod.fst) →
    ∃ tail, q = base ++ tail ∧
      ∀ s ∈ tail, should_ignore_directory s cfg.ignore_patterns = false := by
  intro cfg base t ch q hq
  match t with
  | .file nm s m =>
    rw [show scan_for_projects cfg base (.file nm s m) ch = ([], []) from rfl] at hq
    simp at hq
  | .dir nm m r g es =>
    rw [scan_dir_eq] at hq
    by_cases hroot : (ch && is_project_directory (.dir nm m r g es)) = true
    · rw [if_pos hroot] at hq
      by_cases hr : r = true
      · rw [if_pos hr, scanChildren_fst_acc, scanChildren_snd_acc] at hq
        simp only [List.map_append, List.mem_append, List.map_cons, List.map_nil,
          List.mem_cons, List.not_mem_nil, or_false, mkProject_path,
          scanChildren_snd_paths_indep] at hq
        rcases hq with (hq | hq) | (hq | hq)
        · exact ⟨[], by simp [hq], by intro s hs; cases hs⟩
        · obtain ⟨nm2, tail, heq, h1, h2⟩ := scanSegs_list cfg base es q (Or.inl hq)
          refine ⟨nm2 :: tail, heq, ?_⟩
          intro s hs
          rcases List.mem_cons.mp hs with rfl | hs2
          · exact h1
          · exact h2 s hs2
        · exact ⟨[], by simp [hq], by intro s hs; cases hs⟩
        · obtain ⟨nm2, tail, heq, h1, h2⟩ := scanSegs_list cfg base es q (Or.inr hq)
          refine ⟨nm2 :: tail, heq, ?_⟩
          intro s hs
          rcases List.mem_cons.mp hs with rfl | hs2
          · exact h1
          · exact h2 s hs2
      · rw [if_neg hr] at hq
        simp only [List.map_cons, List.map_nil, List.mem_cons, List.not_mem_nil, or_false,
          mkProject_path] at hq
        rcases hq with hq | hq
        all_goals exact ⟨[], by simp [hq], by intro s hs; cases hs⟩
    · rw [if_neg hroot] at hq
      by_cases hr : r = true
      · rw [if_pos hr] at hq
        obtain ⟨nm2, tail, heq, h1, h2⟩ := scanSegs_list cfg base es q hq
        refine ⟨nm2 :: tail, heq, ?_⟩
        intro s hs
        rcases List.mem_cons.mp hs with rfl | hs2
        · exact h1
        · exact h2 s hs2
      · rw [if_neg hr] at hq
        simp at hq

theorem scanSegs_list : ∀ (cfg : ScanArgs) (base : List String) (es : List FsTree)
    (q : List String),
    (q ∈ (scanChildren cfg base es ([], [])).1.map Project.path ∨
      q ∈ (scanChildren cfg base es ([], [])).2.map Prod.fst) →
    ∃ nm tail, q = base ++ nm :: tail ∧
      should_ignore_directory nm cfg.ignore_patterns = false ∧
      (∀ s ∈ tail, should_ignore_directory s cfg.ignore_patterns = false) := by
  intro cfg base es q hq
  match es with
  | [] =>
    rw [scanChildren_nil_eq] at hq
    simp at hq
  | .file nm s m :: rest =>
    rw [scanChildren_cons_file_eq] at hq
    exact scanSegs_list cfg base rest q hq
  | .dir nm m r g es2 :: rest =>
    by_cases hig : should_ignore_directory nm cfg.ignore_patterns = true
    · rw [scanChildren_cons_ignored_eq cfg base nm m r g es2 rest ([], []) hig] at hq
      exact scanSegs_list cfg base rest q hq
    · have hig0 : should_ignore_directory nm cfg.ignore_patterns = false := by
        revert hig
        cases should_ignore_directory nm cfg.ignore_patterns <;> simp
      rw [scanChildren_cons_dir_eq cfg base nm m r g es2 rest ([], []) hig0,
        scanChildren_fst_acc, scanChildren_snd_acc] at hq
      simp only [List.map_append, List.mem_append, List.map_cons, List.map_nil,
        List.mem_cons, List.not_mem_nil, or_false, mkProject_path,
        scanChildren_snd_paths_indep, List.nil_append, List.append_nil,
        List.length_nil] at hq
      have hsub : ∀ hq2 : (q ∈ (scan_for_projects cfg (base ++ [nm])
            (FsTree.dir nm m r g es2) false).1.map Project.path ∨
          q ∈ (scan_for_projects cfg (base ++ [nm])
            (FsTree.dir nm m r g es2) false).2.map Prod.fst),
          ∃ nm2 tail, q = base ++ nm2 :: tail ∧
            should_ignore_directory nm2 cfg.ignore_patterns = false ∧
            (∀ s ∈ tail, should_ignore_directory s cfg.ignore_patterns = false) := by
        intro hq2
        obtain ⟨tail, heq, htail⟩ :=
          scanSegs_tree cfg (base ++ [nm]) (.dir nm m r g es2) false q hq2
        refine ⟨nm, tail, by simpa using heq, hig0, htail⟩
      have hrest : ∀ hq2 : (q ∈ (scanChildren cfg base rest ([], [])).1.map Project.path ∨
          q ∈ (scanChildren cfg base rest ([], [])).2.map Prod.fst),
          ∃ nm2 tail, q = base ++ nm2 :: tail ∧
            should_ignore_directory nm2 cfg.ignore_patterns = false ∧
            (∀ s ∈ tail, should_ignore_directory s cfg.ignore_patterns = false) :=
        fun hq2 => scanSegs_list cfg base rest q hq2
      by_cases hp : is_project_directory (FsTree.dir nm m r g es2) = true
      · rw [if_pos hp] at hq
        simp only [List.map_append, List.mem_append, List.map_cons, List.map_nil,
          List.mem_cons, List.not_mem_nil, or_false, mkProject_path] at hq
        rcases hq with ((hq | hq) | hq) | ((hq | hq) | hq)
        · exact ⟨nm, [], by simp [hq], hig0, by intro s hs; cases hs⟩
        · exact hsub (Or.inl hq)
        · exact hrest (Or.inl hq)
        · exact ⟨nm, [], by simp [hq], hig0, by intro s hs; cases hs⟩
        · exact hsub (Or.inr hq)
        · exact hrest (Or.inr hq)
      · rw [if_neg hp] at hq
        simp only [List.map_append, List.mem_append, List.map_cons, List.map_nil,
          List.mem_cons, List.not_mem_nil, or_false, false_or] at hq
        rcases hq with (hq | hq) | ((hq | hq) | hq)
        · exact hsub (Or.inl hq)
        · exact hrest (Or.inl hq)
        · exact ⟨nm, [], by simp [hq], hig0, by intro s hs; cases hs⟩
        · exact hsub (Or.inr hq)
        · exact hrest (Or.inr hq)

end

/-- C5: a child directory whose base name matches an ignore pattern is
skipped entirely.  Formally: every path the scan emits — whether as a
project record or as a progress event (the events are exactly the child
directories the scan evaluates and descends into) — adds only non-ignored
segments to the base path, and no emitted path passes through an ignored
name; so an ignored child is never returned, and nothing below it is ever
visited, whatever its contents. -/
theorem C5_ignored_children_skipped (cfg : ScanArgs) (base : List String) (t : FsTree)
    (ch : Bool) (q : List String)
    (hq : q ∈ (scan_for_projects cfg base t ch).1.map Project.path ∨
      q ∈ (scan_for_projects cfg base t ch).2.map Prod.fst) :
    (∀ s ∈ q.drop base.length, s ∉ cfg.ignore_patterns)
    ∧ ∀ s ∈ cfg.ignore_patterns, ¬ (base ++ [s]) <+: q := by
  obtain ⟨tail, rfl, htail⟩ := scanSegs_tree cfg base t ch q hq
  constructor
  · intro s hs hmem
    rw [List.drop_left] at hs
    have hig := htail s hs
    unfold should_ignore_directory at hig
    rw [List.contains_eq_any_beq] at hig
    have : cfg.ignore_patterns.any (fun x => s == x) = true :=
      List.any_eq_true.mpr ⟨s, hmem, by simp⟩
    rw [this] at hig
    cases hig
  · intro s hmem hpre
    obtain ⟨rest, hrest⟩ := hpre
    rw [List.append_assoc] at hrest
    have htl : tail = s :: rest := by
      have := List.append_cancel_left hrest
      simpa using this.symm
    have hig := htail s (by rw [htl]; exact List.mem_cons_self _ _)
    unfold should_ignore_directory at hig
    rw [List.contains_eq_any_beq] at hig
    have : cfg.ignore_patterns.any (fun x => s == x) = true :=
      List.any_eq_true.mpr ⟨s, hmem, by simp⟩
    rw [this] at hig
    cases hig

/-- C5 witness: in the example scan, the emitted path `["a"]` is certified
free of ignored segments and not below the ignored `node_modules` name. -/
theorem C5_ignored_children_skipped_witness :
    "a" ∉ exampleCfg.ignore_patterns
    ∧ ¬ (([] : List String) ++ ["node_modules"]) <+: ["a"] := by
  have h := C5_ignored_children_skipped exampleCfg [] exRoot true ["a"]
    (Or.inl (by decide))
  exact ⟨h.1 "a" (by decide), h.2 "node_modules" (by decide)⟩

/-- A non-ignored project child contributes a record at its own path. -/
theorem scanChildren_mem_child (cfg : ScanArgs) (base : List String) (es : List FsTree)
    (c : FsTree) (hc : c ∈ es) (hd : c.isDir = true)
    (hig : should_ignore_directory c.name cfg.ignore_patterns = false)
    (hp : is_project_directory c = true) :
    (base ++ [c.name]) ∈ (scanChildren cfg base es ([], [])).1.map Project.path := by
  induction es with
  | nil => cases hc
  | cons e rest ih =>
    rcases List.mem_cons.mp hc with rfl | htl
    · match c, hd with
      | .dir nm m r g es2, _ =>
        rw [scanChildren_cons_dir_eq cfg base nm m r g es2 rest ([], []) hig,
          scanChildren_fst_acc]
        rw [show FsTree.name (.dir nm m r g es2) = nm from rfl]
        rw [if_pos hp]
        simp [mkProject_path]
    · cases e with
      | file nm s m =>
        rw [scanChildren_cons_file_eq]
        exact ih htl
      | dir nm m r g es2 =>
        by_cases hig2 : should_ignore_directory nm cfg.ignore_patterns = true
        · rw [scanChildren_cons_ignored_eq cfg base nm m r g es2 rest ([], []) hig2]
          exact ih htl
        · have hig0 : should_ignore_directory nm cfg.ignore_patterns = false := by
            revert hig2
            cases should_ignore_directory nm cfg.ignore_patterns <;> simp
          rw [scanChildren_cons_dir_eq cfg base nm m r g es2 rest ([], []) hig0,
            scanChildren_fst_acc]
          have := ih htl
          simp only [List.map_append, List.mem_append]
          exact Or.inr this

/-- Whatever a non-ignored child's own recursive scan returns is part of the
child loop's result — whether or not the child is itself a project. -/
theorem scanChildren_mem_sub (cfg : ScanArgs) (base : List String) (es : List FsTree)
    (c : FsTree) (x : Project) (hc : c ∈ es) (hd : c.isDir = true)
    (hig : should_ignore_directory c.name cfg.ignore_patterns = false)
    (hx : x ∈ (scan_for_projects cfg (base ++ [c.name]) c false).1) :
    x ∈ (scanChildren cfg base es ([], [])).1 := by
  induction es with
  | nil => cases hc
  | cons e rest ih =>
    rcases List.mem_cons.mp hc with rfl | htl
    · match c, hd, hx with
      | .dir nm m r g es2, _, hx =>
        rw [scanChildren_cons_dir_eq cfg base nm m r g es2 rest ([], []) hig,
          scanChildren_fst_acc]
        rw [show FsTree.name (.dir nm m r g es2) = nm from rfl] at hx
        simp only [List.mem_append]
        exact Or.inl (Or.inr hx)
    · cases e with
      | file nm s m =>
        rw [scanChildren_cons_file_eq]
        exact ih htl
      | dir nm m r g es2 =>
        by_cases hig2 : should_ignore_directory nm cfg.ignore_patterns = true
        · rw [scanChildren_cons_ignored_eq cfg base nm m r g es2 rest ([], []) hig2]
          exact ih htl
        · have hig0 : should_ignore_directory nm cfg.ignore_patterns = false := by
            revert hig2
            cases should_ignore_directory nm cfg.ignore_patterns <;> simp
          rw [scanChildren_cons_dir_eq cfg base nm m r g es2 rest ([], []) hig0,
            scanChildren_fst_acc]
          simp only [List.mem_append]
          exact Or.inr (ih htl)

/-- No record produced by the child loop sits at the base path itself. -/
theorem scanChildren_paths_ne_base (cfg : ScanArgs) (base : List String)
    (es : List FsTree) (x : Project) (hx : x ∈ (scanChildren cfg base es ([], [])).1) :
    (x.path == base) = false := by
  obtain ⟨nm, tail, heq, _, _⟩ := scanSegs_list cfg base es x.path
    (Or.inl (List.mem_map_of_mem Project.path hx))
  refine beq_eq_false_iff_ne.mpr ?_
  rw [heq]
  intro hcontra
  have h0 : base ++ (nm :: tail) = base ++ ([] : List String) := by
    rw [List.append_nil]
    exact hcontra
  cases List.append_cancel_left h0

/-- C6: the scan root is recorded at most once, exactly when it is itself a
project (children never re-contribute the base path); every non-ignored
child directory that is a project appears at its own path; and every
non-ignored listable child is recursed into regardless of its own
project-ness, so a project grandchild under a non-project or project child
alike also appears — nested projects yield independent entries. -/
theorem C6_root_once_children_regardless (cfg : ScanArgs) (base : List String)
    (nm : String) (m : Int) (g : Option GitMeta) (es : List FsTree) :
    (((scan_for_projects cfg base (.dir nm m true g es) true).1.filter
        (fun p => p.path == base)).length
      = if is_project_directory (.dir nm m true g es) then 1 else 0)
    ∧ (∀ c ∈ es, c.isDir = true →
        should_ignore_directory c.name cfg.ignore_patterns = false →
        is_project_directory c = true →
        (base ++ [c.name]) ∈
          (scan_for_projects cfg base (.dir nm m true g es) true).1.map Project.path)
    ∧ (∀ c ∈ es, c.isDir = true →
        should_ignore_directory c.name cfg.ignore_patterns = false →
        c.readable = true →
        ∀ d ∈ c.entries, d.isDir = true →
          should_ignore_directory d.name cfg.ignore_patterns = false →
          is_project_directory d = true →
          (base ++ [c.name, d.name]) ∈
            (scan_for_projects cfg base (.dir nm m true g es) true).1.map Project.path) := by
  have hscan : scan_for_projects cfg base (.dir nm m true g es) true
      = scanChildren cfg base es
          (if is_project_directory (.dir nm m true g es) then
            ([mkProject cfg base (.dir nm m true g es)], [(base, 0)])
          else ([], [])) := by
    rw [scan_dir_eq]
    simp
  have hKnil : List.filter (fun p => p.path == base)
      (scanChildren cfg base es ([], [])).1 = [] :=
    List.filter_eq_nil_iff.mpr
      (fun x hx => by rw [scanChildren_paths_ne_base cfg base es x hx]; simp)
  refine ⟨?_, ?_, ?_⟩
  · rw [hscan]
    by_cases hp : is_project_directory (.dir nm m true g es) = true
    · rw [if_pos hp, if_pos hp, scanChildren_fst_acc, List.filter_append, hKnil,
        List.append_nil]
      have hkeep : (fun p => p.path == base)
          (mkProject cfg base (.dir nm m true g es)) = true := beq_self_eq_true base
      rw [List.filter_cons, if_pos hkeep, List.filter_nil]
      rfl
    · simp only [Bool.not_eq_true] at hp
      rw [hp, if_neg (show ¬ (false = true) by simp), if_neg (show ¬ (false = true) by simp)]
      rw [hKnil]
      rfl
  · intro c hc hd hig hp
    rw [hscan, scanChildren_fst_acc]
    simp only [List.map_append, List.mem_append]
    exact Or.inr (scanChildren_mem_child cfg base es c hc hd hig hp)
  · intro c hc hd hig hcr d hdmem hdd hdig hdp
    cases c with
    | file nmc sc mc => simp [FsTree.isDir] at hd
    | dir nmc mc rc gc esc =>
      simp only [FsTree.readable] at hcr
      subst hcr
      simp only [FsTree.entries] at hdmem
      simp only [FsTree.name] at hig
      rw [show FsTree.name (.dir nmc mc true gc esc) = nmc from rfl]
      have hcscan : scan_for_projects cfg (base ++ [nmc]) (.dir nmc mc true gc esc) false
          = scanChildren cfg (base ++ [nmc]) esc ([], []) := by
        rw [scan_dir_eq]
        simp
      obtain ⟨x, hxmem, hxpath⟩ := List.mem_map.mp
        (scanChildren_mem_child cfg (base ++ [nmc]) esc d hdmem hdd hdig hdp)
      have hxsub : x ∈ (scan_for_projects cfg
          (base ++ [FsTree.name (.dir nmc mc true gc esc)])
          (.dir nmc mc true gc esc) false).1 := by
        rw [show FsTree.name (.dir nmc mc true gc esc) = nmc from rfl, hcscan]
        exact hxmem
      have hxin := scanChildren_mem_sub cfg base es (.dir nmc mc true gc esc) x hc rfl
        hig hxsub
      rw [hscan, scanChildren_fst_acc]
      simp only [List.map_append, List.mem_append]
      refine Or.inr (List.mem_map.mpr ⟨x, hxin, ?_⟩)
      rw [hxpath]
      simp

/-- C6 witness: the nested example yields the root entry exactly once, the
child project `a`, and — under a different root — the grandchild project
`c` below the non-project child `b`. -/
theorem C6_root_once_children_regardless_witness :
    ((scan_for_projects exampleCfg [] exNested true).1.filter
        (fun p => p.path == ([] : List String))).length = 1
    ∧ (([] : List String) ++ ["a"]) ∈
        (scan_for_projects exampleCfg [] exNested true).1.map Project.path
    ∧ (([] : List String) ++ ["b", "c"]) ∈
        (scan_for_projects exampleCfg [] exRoot true).1.map Project.path := by
  refine ⟨?_, ?_, ?_⟩
  · have h := (C6_root_once_children_regardless exampleCfg []
      "parent" 0 none [readmeFile, exDirA]).1
    rw [if_pos (by decide)] at h
    exact h
  · exact (C6_root_once_children_regardless exampleCfg []
      "parent" 0 none [readmeFile, exDirA]).2.1
      exDirA (List.mem_cons_of_mem _ (List.mem_cons_self _ _))
      (by decide) (by decide) (by decide)
  · exact (C6_root_once_children_regardless exampleCfg []
      "root" 0 none [exDirA, exDirB]).2.2
      exDirB (List.mem_cons_of_mem _ (List.mem_cons_self _ _))
      (by decide) (by decide) (by decide)
      exDirC (List.mem_cons_self _ _) (by decide) (by decide) (by decide)

/-- Pruning preserves a node's base name. -/
theorem prune_name (e : FsTree) : (pruneTree e).name = e.name := by
  cases e with
  | file nm s m => rfl
  | dir nm m r g es => cases r <;> simp [pruneTree, FsTree.name]

/-- Pruning preserves directory-ness. -/
theorem prune_isDir (e : FsTree) : (pruneTree e).isDir = e.isDir := by
  cases e with
  | file nm s m => rfl
  | dir nm m r g es => cases r <;> simp [pruneTree, FsTree.isDir]

/-- Pruning preserves a node's own modification time. -/
theorem prune_mtime (e : FsTree) : (pruneTree e).mtime = e.mtime := by
  cases e with
  | file nm s m => rfl
  | dir nm m r g es => cases r <;> simp [pruneTree, FsTree.mtime]

/-- An `any` over a pruned entry list agrees with the original whenever the
predicate is prune-invariant. -/
theorem any_pruneList (es : List FsTree) (f : FsTree → Bool)
    (hf : ∀ e, f (pruneTree e) = f e) : (pruneList es).any f = es.any f := by
  induction es with
  | nil => rfl
  | cons e rest ih => simp [pruneList, List.any_cons, hf, ih]

/-- Child-existence checks see through pruning: a pruned directory was
already unlistable, so the check was already false. -/
theorem existsEntry_prune (t : FsTree) (nm : String) :
    existsEntry (pruneTree t) nm = existsEntry t nm := by
  cases t with
  | file nm2 s m => rfl
  | dir nm2 m r g es =>
    cases r with
    | true =>
      show existsEntry (.dir nm2 m true g (pruneList es)) nm = _
      simp only [existsEntry]
      rw [any_pruneList es _ (fun e => by rw [prune_name])]
    | false => rfl

/-- Regular-file existence checks see through pruning. -/
theorem isFileEntry_prune (t : FsTree) (nm : String) :
    isFileEntry (pruneTree t) nm = isFileEntry t nm := by
  cases t with
  | file nm2 s m => rfl
  | dir nm2 m r g es =>
    cases r with
    | true =>
      show isFileEntry (.dir nm2 m true g (pruneList es)) nm = _
      simp only [isFileEntry]
      rw [any_pruneList es _ (fun e => by rw [prune_isDir, prune_name])]
    | false => rfl

/-- The `.git` check sees through pruning. -/
theorem hasGitEntry_prune (t : FsTree) :
    hasGitEntry (pruneTree t) = hasGitEntry t := by
  cases t with
  | file nm s m => rfl
  | dir nm m r g es => cases r <;> rfl

/-- Glob checks see through pruning. -/
theorem globHit_prune (t : FsTree) (pat : String) :
    globHit (pruneTree t) pat = globHit t pat := by
  cases t with
  | file nm s m => rfl
  | dir nm m r g es =>
    cases r with
    | true =>
      show globHit (.dir nm m true g (pruneList es)) pat = _
      simp only [globHit]
      rw [any_pruneList es _ (fun e => by rw [prune_name])]
    | false => rfl

/-- Single-marker checks see through pruning. -/
theorem markerHit_prune (t : FsTree) (marker : String) :
    markerHit (pruneTree t) marker = markerHit t marker := by
  unfold markerHit
  rw [globHit_prune, existsEntry_prune]

/-- The marker-table loop sees through pruning. -/
theorem detectFrom_prune (L : List (ProjectType × List String)) (t : FsTree) :
    detectFrom L (pruneTree t) = detectFrom L t := by
  have hfun : markerHit (pruneTree t) = markerHit t := funext (markerHit_prune t)
  induction L with
  | nil => rfl
  | cons p rest ih =>
    obtain ⟨ty, ms⟩ := p
    simp only [detectFrom, hfun, ih]

/-- Type detection sees through pruning. -/
theorem detect_prune (t : FsTree) :
    detect_project_type (pruneTree t) = detect_project_type t := by
  unfold detect_project_type
  rw [detectFrom_prune]

/-- README lookup sees through pruning. -/
theorem find_readme_prune (t : FsTree) :
    find_readme (pruneTree t) = find_readme t := by
  unfold find_readme
  rw [show (fun nm => isFileEntry (pruneTree t) nm) = (fun nm => isFileEntry t nm)
      from funext (isFileEntry_prune t)]

/-- Project detection sees through pruning. -/
theorem is_project_prune (t : FsTree) :
    is_project_directory (pruneTree t) = is_project_directory t := by
  rw [is_project_directory_eq_or, is_project_directory_eq_or, hasGitEntry_prune,
    find_readme_prune, detect_prune]

mutual

/-- Byte totals see through pruning: an unlistable directory already
contributed zero. -/
theorem totalBytes_prune : ∀ t : FsTree, totalBytes (pruneTree t) = totalBytes t := by
  intro t
  match t with
  | .file nm s m => rfl
  | .dir nm m r g es =>
    cases r with
    | true =>
      show totalBytes (.dir nm m true g (pruneList es)) = _
      simp only [totalBytes]
      rw [totalBytesList_prune es]
    | false => rfl

/-- List version of `totalBytes_prune`. -/
theorem totalBytesList_prune : ∀ es : List FsTree,
    totalBytesList (pruneList es) = totalBytesList es := by
  intro es
  match es with
  | [] => rfl
  | e :: rest =>
    show totalBytesList (pruneTree e :: pruneList rest) = _
    simp only [totalBytesList]
    rw [totalBytes_prune e, totalBytesList_prune rest]

end

/-- Directory sizes see through pruning. -/
theorem get_directory_size_prune (t : FsTree) :
    get_directory_size (pruneTree t) = get_directory_size t := by
  unfold get_directory_size
  rw [totalBytes_prune]

/-- The file-mtime extraction of one walk step sees through pruning. -/
theorem fileTimes_prune (es : List FsTree) : fileTimes (pruneList es) = fileTimes es := by
  induction es with
  | nil => rfl
  | cons e rest ih =>
    cases e with
    | file nm s m =>
      show fileTimes (.file nm s m :: pruneList rest) = _
      simp only [fileTimes, List.filterMap_cons] at ih ⊢
      rw [ih]
    | dir nm m r g es2 =>
      cases r with
      | true =>
        show fileTimes (.dir nm m true g (pruneList es2) :: pruneList rest) = _
        simp only [fileTimes, List.filterMap_cons] at ih ⊢
        rw [ih]
      | false =>
        show fileTimes (.dir nm m false g [] :: pruneList rest) = _
        simp only [fileTimes, List.filterMap_cons] at ih ⊢
        rw [ih]

mutual

/-- The walk's yielded modification times see through pruning: an
unlistable directory already yielded nothing. -/
theorem walkTimes_prune : ∀ t : FsTree, walkTimes (pruneTree t) = walkTimes t := by
  intro t
  match t with
  | .file nm s m => rfl
  | .dir nm m r g es =>
    cases r with
    | true =>
      show walkTimes (.dir nm m true g (pruneList es)) = _
      simp only [walkTimes]
      rw [fileTimes_prune es, walkTimesList_prune es]
    | false => rfl

/-- List version of `walkTimes_prune`. -/
theorem walkTimesList_prune : ∀ es : List FsTree,
    walkTimesList (pruneList es) = walkTimesList es := by
  intro es
  match es with
  | [] => rfl
  | e :: rest =>
    show walkTimesList (pruneTree e :: pruneList rest) = _
    simp only [walkTimesList]
    rw [walkTimes_prune e, walkTimesList_prune rest]

end

/-- Last-modified extraction sees through pruning. -/
theorem get_last_modified_prune (t : FsTree) :
    get_last_modified (pruneTree t) = get_last_modified t := by
  unfold get_last_modified
  rw [walkTimes_prune, prune_mtime]

/-- Git inspection sees through pruning (it reads only the directory's
readability and `.git` state). -/
theorem get_git_info_prune (t : FsTree) :
    get_git_info (pruneTree t) = get_git_info t := by
  cases t with
  | file nm s m => rfl
  | dir nm m r g es => cases r <;> rfl

/-- Record construction sees through pruning. -/
theorem mkProject_prune (cfg : ScanArgs) (base : List String) (t : FsTree) :
    mkProject cfg base (pruneTree t) = mkProject cfg base t := by
  simp only [mkProject]
  rw [get_git_info_prune, find_readme_prune, detect_prune, get_last_modified_prune,
    get_directory_size_prune, prune_name]

mutual

/-- The scan sees through pruning: everything below an unlistable directory
is invisible to it, so a directory-read failure loses exactly that subtree
and nothing else — siblings and ancestors are processed identically. -/
theorem scan_prune : ∀ (cfg : ScanArgs) (base : List String) (t : FsTree) (ch : Bool),
    scan_for_projects cfg base (pruneTree t) ch = scan_for_projects cfg base t ch := by
  intro cfg base t ch
  match t with
  | .file nm s m => rfl
  | .dir nm m r g es =>
    cases r with
    | true =>
      have hpr : pruneTree (.dir nm m true g es) = .dir nm m true g (pruneList es) := by
        simp [pruneTree]
      have hproj := is_project_prune (.dir nm m true g es)
      have hmk := mkProject_prune cfg base (.dir nm m true g es)
      rw [hpr] at hproj hmk
      rw [hpr, scan_dir_eq, scan_dir_eq, hproj, hmk, scanChildren_prune cfg base es]
    | false =>
      have hpr : pruneTree (.dir nm m false g es) = .dir nm m false g [] := by
        simp [pruneTree]
      have hproj := is_project_prune (.dir nm m false g es)
      have hmk := mkProject_prune cfg base (.dir nm m false g es)
      rw [hpr] at hproj hmk
      rw [hpr, scan_dir_eq, scan_dir_eq, hproj, hmk]
      simp only [Bool.false_eq_true, if_false]

/-- The child loop sees through pruning of its entry list. -/
theorem scanChildren_prune : ∀ (cfg : ScanArgs) (base : List String) (es : List FsTree)
    (acc : List Project × List ScanEvent),
    scanChildren cfg base (pruneList es) acc = scanChildren cfg base es acc := by
  intro cfg base es acc
  match es with
  | [] => rfl
  | .file nm s m :: rest =>
    show scanChildren cfg base (.file nm s m :: pruneList rest) acc = _
    rw [scanChildren_cons_file_eq, scanChildren_cons_file_eq,
      scanChildren_prune cfg base rest]
  | .dir nm m r g es2 :: rest =>
    cases r with
    | true =>
      show scanChildren cfg base
        (pruneTree (.dir nm m true g es2) :: pruneList rest) acc = _
      have hpr : pruneTree (.dir nm m true g es2) = .dir nm m true g (pruneList es2) := by
        simp [pruneTree]
      by_cases hig : should_ignore_directory nm cfg.ignore_patterns = true
      · rw [hpr, scanChildren_cons_ignored_eq cfg base nm m true g (pruneList es2) _ _ hig,
          scanChildren_cons_ignored_eq cfg base nm m true g es2 _ _ hig,
          scanChildren_prune cfg base rest]
      · have hig0 : should_ignore_directory nm cfg.ignore_patterns = false := by
          revert hig
          cases should_ignore_directory nm cfg.ignore_patterns <;> simp
        have hproj := is_project_prune (.dir nm m true g es2)
        have hmk := mkProject_prune cfg (base ++ [nm]) (.dir nm m true g es2)
        have hsub := scan_prune cfg (base ++ [nm]) (.dir nm m true g es2) false
        rw [hpr] at hproj hmk hsub
        rw [hpr, scanChildren_cons_dir_eq cfg base nm m true g (pruneList es2) _ _ hig0,
          scanChildren_cons_dir_eq cfg base nm m true g es2 _ _ hig0,
          hproj, hmk, hsub, scanChildren_prune cfg base rest]
    | false =>
      show scanChildren cfg base
        (pruneTree (.dir nm m false g es2) :: pruneList rest) acc = _
      have hpr : pruneTree (.dir nm m false g es2) = .dir nm m false g [] := by
        simp [pruneTree]
      by_cases hig : should_ignore_directory nm cfg.ignore_patterns = true
      · rw [hpr, scanChildren_cons_ignored_eq cfg base nm m false g [] _ _ hig,
          scanChildren_cons_ignored_eq cfg base nm m false g es2 _ _ hig,
          scanChildren_prune cfg base rest]
      · have hig0 : should_ignore_directory nm cfg.ignore_patterns = false := by
          revert hig
          cases should_ignore_directory nm cfg.ignore_patterns <;> simp
        have hproj := is_project_prune (.dir nm m false g es2)
        have hmk := mkProject_prune cfg (base ++ [nm]) (.dir nm m false g es2)
        have hsub := scan_prune cfg (base ++ [nm]) (.dir nm m false g es2) false
        rw [hpr] at hproj hmk hsub
        rw [hpr, scanChildren_cons_dir_eq cfg base nm m false g [] _ _ hig0,
          scanChildren_cons_dir_eq cfg base nm m false g es2 _ _ hig0,
          hproj, hmk, hsub, scanChildren_prune cfg base rest]

end

/-- C7: a directory-read error loses only the affected subtree.  The scan
(a total function here: the source swallows `OSError`/`PermissionError` at
each node and degrades, never raising) returns the same projects and the
same progress trace whether or not anything exists below unlistable
directories — so siblings and the remaining children of ancestors are
processed identically — and an unlistable directory contributes zero size
and only its own stat mtime (its subtree's timestamps never participate). -/
theorem C7_read_errors_local (cfg : ScanArgs) (base : List String) (t : FsTree)
    (ch : Bool) :
    scan_for_projects cfg base (pruneTree t) ch = scan_for_projects cfg base t ch
    ∧ (t.readable = false →
        get_directory_size t = 0 ∧ get_last_modified t = t.mtime) := by
  refine ⟨scan_prune cfg base t ch, ?_⟩
  intro hr
  cases t with
  | file nm s m => simp [FsTree.readable] at hr
  | dir nm m r g es =>
    simp only [FsTree.readable] at hr
    subst hr
    constructor
    · unfold get_directory_size
      rw [show totalBytes (.dir nm m false g es) = 0 from rfl]
      simp
    · unfold get_last_modified
      rw [show walkTimes (.dir nm m false g es) = [] from rfl]
      rfl

/-- C7 witness: the locked example directory: pruning it changes nothing,
its size is zero and its last-modified time is its own mtime, not its
hidden child's. -/
theorem C7_read_errors_local_witness :
    scan_for_projects exampleCfg [] (pruneTree exLocked) true
      = scan_for_projects exampleCfg [] exLocked true
    ∧ get_directory_size exLocked = 0
    ∧ get_last_modified exLocked = exLocked.mtime := by
  have h := C7_read_errors_local exampleCfg [] exLocked true
  exact ⟨h.1, (h.2 rfl).1, (h.2 rfl).2⟩

/-- Unfolding of the spec-side trace model on a directory. -/
theorem specScan_dir_eq (ps base : List String) (nm : String) (m : Int) (r : Bool)
    (g : Option GitMeta) (es : List FsTree) (root : Bool) :
    specScan ps base (.dir nm m r g es) root =
      (if r then
        ((specKids ps base es
            (if root && is_project_directory (.dir nm m r g es) then 1 else 0)).1,
          (if root && is_project_directory (.dir nm m r g es) then
            [((base, 0) : ScanEvent)] else [])
            ++ (specKids ps base es
              (if root && is_project_directory (.dir nm m r g es) then 1 else 0)).2)
      else
        ((if root && is_project_directory (.dir nm m r g es) then 1 else 0),
          (if root && is_project_directory (.dir nm m r g es) then
            [((base, 0) : ScanEvent)] else []))) := rfl

/-- Unfolding of the spec-side trace model on a non-ignored child. -/
theorem specKids_cons_dir_eq (ps base : List String) (nm : String) (m : Int) (r : Bool)
    (g : Option GitMeta) (es2 rest : List FsTree) (k : Nat)
    (h : should_ignore_directory nm ps = false) :
    specKids ps base (.dir nm m r g es2 :: rest) k =
      ((specKids ps base rest
          ((k + (if is_project_directory (.dir nm m r g es2) then 1 else 0))
            + (specScan ps (base ++ [nm]) (.dir nm m r g es2) false).1)).1,
        (((base ++ [nm], k) :: (specScan ps (base ++ [nm]) (.dir nm m r g es2) false).2)
          ++ (specKids ps base rest
            ((k + (if is_project_directory (.dir nm m r g es2) then 1 else 0))
              + (specScan ps (base ++ [nm]) (.dir nm m r g es2) false).1)).2)) := by
  simp [specKids, h]

/-- Skipped entries of the spec-side trace model. -/
theorem specKids_cons_file_eq (ps base : List String) (nm : String) (s : Nat) (m : Int)
    (rest : List FsTree) (k : Nat) :
    specKids ps base (.file nm s m :: rest) k = specKids ps base rest k := rfl

/-- Ignored children of the spec-side trace model. -/
theorem specKids_cons_ignored_eq (ps base : List String) (nm : String) (m : Int)
    (r : Bool) (g : Option GitMeta) (es2 rest : List FsTree) (k : Nat)
    (h : should_ignore_directory nm ps = true) :
    specKids ps base (.dir nm m r g es2 :: rest) k = specKids ps base rest k := by
  simp [specKids, h]

mutual

/-- The scan's progress trace and project count agree with the spec-side
model `specScan` written from the amended claim. -/
theorem scanTrace_spec_tree : ∀ (cfg : ScanArgs) (base : List String) (t : FsTree)
    (ch : Bool),
    (scan_for_projects cfg base t ch).2 = (specScan cfg.ignore_patterns base t ch).2
    ∧ (scan_for_projects cfg base t ch).1.length
        = (specScan cfg.ignore_patterns base t ch).1 := by
  intro cfg base t ch
  match t with
  | .file nm s m => exact ⟨rfl, rfl⟩
  | .dir nm m r g es =>
    rw [scan_dir_eq, specScan_dir_eq]
    by_cases hroot : (ch && is_project_directory (.dir nm m r g es)) = true
    · simp only [hroot, eq_self_iff_true, if_true]
      cases r with
      | true =>
        simp only [eq_self_iff_true, if_true]
        have h := scanTrace_spec_list cfg base es
          [mkProject cfg base (.dir nm m true g es)] [((base, 0) : ScanEvent)]
        rw [show ([mkProject cfg base (.dir nm m true g es)]).length = 1 from rfl] at h
        exact h
      | false =>
        simp only [Bool.false_eq_true, if_false]
        exact ⟨trivial, rfl⟩
    · have hroot0 : (ch && is_project_directory (.dir nm m r g es)) = false := by
        revert hroot
        cases (ch && is_project_directory (.dir nm m r g es)) <;> simp
      simp only [hroot0, Bool.false_eq_true, if_false]
      cases r with
      | true =>
        simp only [eq_self_iff_true, if_true]
        have h := scanTrace_spec_list cfg base es [] []
        rw [show ([] : List Project).length = 0 from rfl] at h
        refine ⟨?_, h.2⟩
        rw [h.1]
        try rfl
      | false =>
        exact ⟨rfl, rfl⟩

theorem scanTrace_spec_list : ∀ (cfg : ScanArgs) (base : List String) (es : List FsTree)
    (p : List Project) (ev : List ScanEvent),
    (scanChildren cfg base es (p, ev)).2
        = ev ++ (specKids cfg.ignore_patterns base es p.length).2
    ∧ (scanChildren cfg base es (p, ev)).1.length
        = (specKids cfg.ignore_patterns base es p.length).1 := by
  intro cfg base es p ev
  match es with
  | [] =>
    constructor
    · rw [scanChildren_nil_eq]
      rw [show (specKids cfg.ignore_patterns base [] p.length).2 = [] from rfl]
      rw [List.append_nil]
    · rfl
  | .file nm s m :: rest =>
    rw [scanChildren_cons_file_eq, specKids_cons_file_eq]
    exact scanTrace_spec_list cfg base rest p ev
  | .dir nm m r g es2 :: rest =>
    by_cases hig : should_ignore_directory nm cfg.ignore_patterns = true
    · rw [scanChildren_cons_ignored_eq cfg base nm m r g es2 rest (p, ev) hig,
        specKids_cons_ignored_eq cfg.ignore_patterns base nm m r g es2 rest p.length hig]
      exact scanTrace_spec_list cfg base rest p ev
    · have hig0 : should_ignore_directory nm cfg.ignore_patterns = false := by
        revert hig
        cases should_ignore_directory nm cfg.ignore_patterns <;> simp
      rw [scanChildren_cons_dir_eq cfg base nm m r g es2 rest (p, ev) hig0,
        specKids_cons_dir_eq cfg.ignore_patterns base nm m r g es2 rest p.length hig0]
      obtain ⟨hsub2, hsub1⟩ :=
        scanTrace_spec_tree cfg (base ++ [nm]) (.dir nm m r g es2) false
      have hwp : (if is_project_directory (.dir nm m r g es2) then
            (p, ev).1 ++ [mkProject cfg (base ++ [nm]) (.dir nm m r g es2)]
          else (p, ev).1).length
          = p.length + (if is_project_directory (.dir nm m r g es2) then 1 else 0) := by
        by_cases hpj : is_project_directory (.dir nm m r g es2) = true
        · rw [if_pos hpj, if_pos hpj, List.length_append]
          rfl
        · simp only [Bool.not_eq_true] at hpj
          rw [hpj]
          simp
      have hplen : ((if is_project_directory (.dir nm m r g es2) then
            (p, ev).1 ++ [mkProject cfg (base ++ [nm]) (.dir nm m r g es2)]
          else (p, ev).1)
            ++ (scan_for_projects cfg (base ++ [nm]) (.dir nm m r g es2) false).1).length
          = (p.length + (if is_project_directory (.dir nm m r g es2) then 1 else 0))
            + (specScan cfg.ignore_patterns (base ++ [nm]) (.dir nm m r g es2) false).1 := by
        rw [List.length_append, hwp, hsub1]
      obtain ⟨hr2, hr1⟩ := scanTrace_spec_list cfg base rest
        ((if is_project_directory (.dir nm m r g es2) then
            (p, ev).1 ++ [mkProject cfg (base ++ [nm]) (.dir nm m r g es2)]
          else (p, ev).1)
          ++ (scan_for_projects cfg (base ++ [nm]) (.dir nm m r g es2) false).1)
        (((p, ev).2 ++ [(base ++ [nm], (p, ev).1.length)])
          ++ (scan_for_projects cfg (base ++ [nm]) (.dir nm m r g es2) false).2)
      constructor
      · rw [hr2, hplen, hsub2]
        simp [List.append_assoc]
      · rw [hr1, hplen]

end

/-- C8 counterexample: scanning `exRoot` (root not a project; children `a`
— a project — and `b`, not a project but containing the project `c`).  The
root directory is visited but triggers no callback (the claim requires one
per visited directory including the root), and the callback for `b/c`
carries count 0 although one project (`a`) had already been found — the
count is local to the enclosing recursive call, not a global
"projects found so far". -/
theorem C8_progress_claim_counterexample :
    (scan_for_projects exampleCfg [] exRoot true).2
      = [((["a"], 0) : ScanEvent), (["b"], 1), (["b", "c"], 0)]
    ∧ (scan_for_projects exampleCfg [] exRoot true).1.length = 2
    ∧ (∀ e ∈ (scan_for_projects exampleCfg [] exRoot true).2,
        e.1 ≠ ([] : List String))
    ∧ ((["b", "c"], 1) : ScanEvent) ∉ (scan_for_projects exampleCfg [] exRoot true).2 := by
  decide

/-- C8 (amended): the progress sink is invoked synchronously once per
non-ignored child directory descended into, carrying the number of projects
accumulated so far by the enclosing recursive call (a subtree-local count);
the scan root itself triggers an invocation, with count 0, only when the
root is detected as a project; the sink's return value is never consulted
and cannot halt the scan.  Formally the scan's trace and total count
coincide with the spec-side model `specScan`/`specKids` written from these
words. -/
theorem C8_progress_trace_amended (cfg : ScanArgs) (base : List String) (t : FsTree) :
    (scan_for_projects cfg base t true).2 = (specScan cfg.ignore_patterns base t true).2
    ∧ (scan_for_projects cfg base t true).1.length
        = (specScan cfg.ignore_patterns base t true).1 :=
  scanTrace_spec_tree cfg base t true

/-- `get_git_info` reports a status only when it reports `.git` present. -/
theorem get_git_info_fst_of_status (t : FsTree)
    (h : (get_git_info t).2.2.isSome = true) : (get_git_info t).1 = true := by
  cases t with
  | file nm s m => simp [get_git_info] at h
  | dir nm m r g es =>
    cases r with
    | false => simp [get_git_info] at h
    | true =>
      cases g with
      | none => simp [get_git_info] at h
      | some gm =>
        cases gm with
        | invalid => rfl
        | valid remotes isDirty headDetached trackingBranch commitsAhead inspectFails => rfl

mutual

/-- Every record a scan produces satisfies the status-implies-presence
invariant. -/
theorem scanInv_tree : ∀ (cfg : ScanArgs) (base : List String) (t : FsTree) (ch : Bool)
    (p : Project), p ∈ (scan_for_projects cfg base t ch).1 →
    p.git_status.isSome = true → p.has_git = true := by
  intro cfg base t ch p hp hs
  match t with
  | .file nm s m =>
    rw [show scan_for_projects cfg base (.file nm s m) ch = ([], []) from rfl] at hp
    cases hp
  | .dir nm m r g es =>
    rw [scan_dir_eq] at hp
    have hstart : ∀ q ∈ (if (ch && is_project_directory (.dir nm m r g es)) = true then
          ([mkProject cfg base (.dir nm m r g es)], [((base, 0) : ScanEvent)])
        else ([], [])).1,
        q.git_status.isSome = true → q.has_git = true := by
      by_cases hroot : (ch && is_project_directory (.dir nm m r g es)) = true
      · rw [if_pos hroot]
        intro q hq hqs
        rcases List.mem_cons.mp hq with rfl | hq2
        · exact get_git_info_fst_of_status (.dir nm m r g es) hqs
        · cases hq2
      · rw [if_neg hroot]
        intro q hq
        cases hq
    cases r with
    | true =>
      rw [if_pos rfl, scanChildren_fst_acc] at hp
      rcases List.mem_append.mp hp with hp1 | hp2
      · exact hstart p hp1 hs
      · exact scanInv_list cfg base es p hp2 hs
    | false =>
      rw [if_neg (show ¬ (false = true) by simp)] at hp
      exact hstart p hp hs

/-- The child loop's own contribution satisfies the status-implies-presence
invariant. -/
theorem scanInv_list : ∀ (cfg : ScanArgs) (base : List String) (es : List FsTree)
    (p : Project), p ∈ (scanChildren cfg base es ([], [])).1 →
    p.git_status.isSome = true → p.has_git = true := by
  intro cfg base es p hp hs
  match es with
  | [] =>
    rw [scanChildren_nil_eq] at hp
    cases hp
  | .file nm s m :: rest =>
    rw [scanChildren_cons_file_eq] at hp
    exact scanInv_list cfg base rest p hp hs
  | .dir nm m r g es2 :: rest =>
    by_cases hig : should_ignore_directory nm cfg.ignore_patterns = true
    · rw [scanChildren_cons_ignored_eq cfg base nm m r g es2 rest ([], []) hig] at hp
      exact scanInv_list cfg base rest p hp hs
    · have hig0 : should_ignore_directory nm cfg.ignore_patterns = false := by
        revert hig
        cases should_ignore_directory nm cfg.ignore_patterns <;> simp
      rw [scanChildren_cons_dir_eq cfg base nm m r g es2 rest ([], []) hig0,
        scanChildren_fst_acc] at hp
      rcases List.mem_append.mp hp with hp1 | hp2
      · rcases List.mem_append.mp hp1 with hp3 | hp4
        · by_cases hpj : is_project_directory (.dir nm m r g es2) = true
          · rw [if_pos hpj] at hp3
            rcases List.mem_cons.mp hp3 with rfl | hp5
            · exact get_git_info_fst_of_status (.dir nm m r g es2) hs
            · cases hp5
          · simp only [Bool.not_eq_true] at hpj
            rw [hpj] at hp3
            simp only [Bool.false_eq_true, if_false] at hp3
            cases hp3
        · exact scanInv_tree cfg (base ++ [nm]) (.dir nm m r g es2) false p hp4 hs
      · exact scanInv_list cfg base rest p hp2 hs

end

/-- C9: a record's `git_status` is present only when `has_git` is true; a
visible but unparsable `.git` yields `(present, no remote, no status)`
rather than an error, so `git_remote` can be absent with `has_git` true;
and every record of every scan satisfies the invariant. -/
theorem C9_vcs_status_invariant (cfg : ScanArgs) (base : List String) (t : FsTree)
    (ch : Bool) :
    ((get_git_info t).2.2.isSome = true → (get_git_info t).1 = true)
    ∧ (∀ (nm : String) (m : Int) (es : List FsTree),
        get_git_info (.dir nm m true (some .invalid) es) = (true, none, none))
    ∧ (∀ p ∈ (scan_for_projects cfg base t ch).1,
        p.git_status.isSome = true → p.has_git = true) := by
  refine ⟨get_git_info_fst_of_status t, fun nm m es => rfl, ?_⟩
  intro p hp hs
  exact scanInv_tree cfg base t ch p hp hs

/-- C9 witness: a clean repository reports presence through the theorem;
the corrupt-repository example reports presence with no remote and no
status. -/
theorem C9_vcs_status_invariant_witness :
    (get_git_info exValidRepo).1 = true
    ∧ get_git_info exCorruptRepo = (true, none, none) := by
  have h := C9_vcs_status_invariant exampleCfg [] exValidRepo true
  exact ⟨h.1 (by decide), h.2.1 "repo" 0 [readmeFile]⟩

/-- C10: the ignore list filters only child directories: a scan root whose
own base name is an ignore pattern is still evaluated and, being a project,
heads the result at its own path. -/
theorem C10_root_name_not_filtered (cfg : ScanArgs) (base : List String) (t : FsTree)
    (hname : t.name ∈ cfg.ignore_patterns) (hp : is_project_directory t = true) :
    ((scan_for_projects cfg base t true).1.map Project.path).head? = some base
    ∧ base ∈ (scan_for_projects cfg base t true).1.map Project.path := by
  cases t with
  | file nm s m =>
    rw [show is_project_directory (.file nm s m) = false from rfl] at hp
    cases hp
  | dir nm m r g es =>
    rw [scan_dir_eq]
    have hroot : (true && is_project_directory (.dir nm m r g es)) = true := by
      rw [hp]
      rfl
    rw [if_pos hroot]
    cases r with
    | true =>
      rw [if_pos (show (true = true) from rfl), scanChildren_fst_acc]
      have hmap : List.map Project.path [mkProject cfg base (.dir nm m true g es)]
          = [base] := by
        rw [List.map_cons, List.map_nil, mkProject_path]
      constructor
      · rw [List.map_append, hmap, List.singleton_append]
        rfl
      · rw [List.map_append, hmap]
        exact List.mem_append.mpr (Or.inl (List.mem_singleton.mpr rfl))
    | false =>
      rw [if_neg (show ¬ (false = true) by simp)]
      have hmap : List.map Project.path [mkProject cfg base (.dir nm m false g es)]
          = [base] := by
        rw [List.map_cons, List.map_nil, mkProject_path]
      rw [hmap]
      exact ⟨rfl, List.mem_singleton.mpr rfl⟩

/-- C10 witness: a project directory literally named `node_modules`, scanned
with `node_modules` in the ignore list, is still returned first. -/
theorem C10_root_name_not_filtered_witness :
    ((scan_for_projects exampleCfg [] exIgnoredName true).1.map Project.path).head?
      = some ([] : List String)
    ∧ ([] : List String) ∈
        (scan_for_projects exampleCfg [] exIgnoredName true).1.map Project.path := by
  exact C10_root_name_not_filtered exampleCfg [] exIgnoredName (by decide) (by decide)
